import Mathlib

/- Shallow embedding of the Monte Carlo integration repository
   (plain Monte Carlo integrator, Gibbs accept-reject sampler,
   importance-sampling estimator, blocking-variance analyzer).

   Numeric float values are modelled by exact arithmetic: rationals where
   the code only uses field operations and comparisons, reals where a
   square root is taken.  Python exceptions are modelled by `Option`
   (`none` = the call raises). -/

/-- Mean of a list as numpy computes it: `np.mean(xs) = xs.sum() / len(xs)`
(for an empty list the denominator is zero; the convention `x / 0 = 0`
stands in for numpy's NaN, and no theorem below evaluates the mean of an
empty list). -/
def npMean {K : Type*} [DivisionRing K] (xs : List K) : K :=
  xs.sum / (xs.length : K)

/-- Arithmetic mean as the specification words it: accumulate the elements
one by one and divide by their count. -/
def specMean {K : Type*} [DivisionRing K] (xs : List K) : K :=
  (xs.foldl (· + ·) 0) / (xs.length : K)

theorem foldl_add_eq_add_sum {M : Type*} [AddMonoid M] :
    ∀ (l : List M) (a : M), l.foldl (· + ·) a = a + l.sum
  | [], a => by simp
  | x :: l, a => by
    rw [List.foldl_cons, foldl_add_eq_add_sum l, List.sum_cons, add_assoc]

theorem npMean_eq_specMean {K : Type*} [DivisionRing K] (xs : List K) :
    npMean xs = specMean xs := by
  simp [npMean, specMean, foldl_add_eq_add_sum]

/-- Unbiased sample variance as numpy computes it:
`xs.var(ddof=1) = sum((x - mean)**2) / (len(xs) - 1)`. -/
def npVarDdof1 (xs : List ℚ) : ℚ :=
  (xs.map (fun x => (x - npMean xs) ^ 2)).sum / ((xs.length : ℚ) - 1)

/-- Unbiased sample variance as the specification words it (denominator
`n - 1`, deviations taken from the spec-side arithmetic mean). -/
def specS2 (xs : List ℚ) : ℚ :=
  (xs.map (fun x => (x - specMean xs) ^ 2)).sum / ((xs.length : ℚ) - 1)

theorem npVarDdof1_eq_specS2 (xs : List ℚ) : npVarDdof1 xs = specS2 xs := by
  simp [npVarDdof1, specS2, npMean_eq_specMean]

/-- First `n` consecutive length-`L` blocks of a list.  This models
`series[:n*L].reshape(n, L)`: block `i` holds the elements at positions
`i*L, ..., i*L + L - 1`, and elements from position `n*L` on are discarded. -/
def chunkList {α : Type*} (L : ℕ) : ℕ → List α → List (List α)
  | 0, _ => []
  | n + 1, s => s.take L :: chunkList L n (s.drop L)

theorem chunkList_length {α : Type*} (L : ℕ) :
    ∀ (n : ℕ) (s : List α), (chunkList L n s).length = n
  | 0, _ => rfl
  | n + 1, s => by simp [chunkList, chunkList_length L n]

theorem chunkList_get? {α : Type*} (L : ℕ) :
    ∀ (n i : ℕ) (s : List α), i < n →
      (chunkList L n s).get? i = some ((s.drop (i * L)).take L)
  | n + 1, 0, s, _ => by simp [chunkList]
  | n + 1, i + 1, s, h => by
    rw [chunkList, List.get?_cons_succ,
      chunkList_get? L n i (s.drop L) (Nat.lt_of_succ_lt_succ h),
      List.drop_drop, Nat.succ_mul, Nat.add_comm (i * L) L]

/-- Mean of the `i`-th length-`L` block, as the specification words it:
the mean of elements `i*L, ..., i*L + L - 1` of the series. -/
def specBlockMean (series : List ℚ) (L i : ℕ) : ℚ :=
  specMean ((series.drop (i * L)).take L)

/-- The list of the `n` block means, as the specification words it. -/
def specBlockMeans (series : List ℚ) (L n : ℕ) : List ℚ :=
  (List.range n).map (specBlockMean series L)

theorem chunk_means_eq_specBlockMeans (series : List ℚ) (L n : ℕ) :
    (chunkList L n series).map npMean = specBlockMeans series L n := by
  apply List.ext_get?
  intro i
  rcases Nat.lt_or_ge i n with h | h
  · rw [List.get?_map, chunkList_get? L n i series h, specBlockMeans,
      List.get?_map, List.get?_range h]
    simp [specBlockMean, npMean_eq_specMean]
  · have h1 : (((chunkList L n series).map npMean).get? i) = none := by
      rw [List.get?_eq_none]
      simp [chunkList_length, h]
    have h2 : ((specBlockMeans series L n).get? i) = none := by
      rw [List.get?_eq_none]
      simp [specBlockMeans, h]
    rw [h1, h2]

/-- Variance of the overall mean at block length `L`, as the specification
words it: the unbiased sample variance of the `n_blocks = N / L` block
means, divided by `n_blocks`. -/
def specVarOfMean (series : List ℚ) (L : ℕ) : ℚ :=
  specS2 (specBlockMeans series L (series.length / L)) /
    ((series.length / L : ℕ) : ℚ)

/-- Result record of `blocking_variance`: the three parallel sequences it
returns (powers-of-two block lengths, variance of the mean at each block
length, 1-sigma uncertainty of that variance). -/
structure BlockCurve where
  bin_sizes : List ℕ
  var_mean : List ℚ
  err_var : List ℝ

/-- Body of one iteration of the `for L in bin_sizes` loop of
`blocking_variance` (the part after the guard): `n_blocks = N // L`,
`blocks = series[:n_blocks*L].reshape(n_blocks, L).mean(axis=1)`,
`s2 = blocks.var(ddof=1)`, `v_mean = s2 / n_blocks`, and the error bar
`v_mean * np.sqrt(2 / (n_blocks - 1))`. -/
noncomputable def blockingEntry (series : List ℚ) (L : ℕ) : ℕ × ℚ × ℝ :=
  let n_blocks := series.length / L
  let blocks := (chunkList L n_blocks series).map npMean
  let s2 := npVarDdof1 blocks
  let v_mean := s2 / (n_blocks : ℚ)
  (L, v_mean, (v_mean : ℝ) * Real.sqrt (2 / ((n_blocks : ℝ) - 1)))

/-- The `for L in bin_sizes` loop of `blocking_variance`, including the
`if n_blocks < min_blocks: break` guard (reaching the guard ends the loop
and discards the remaining candidates). -/
noncomputable def blockingLoop (series : List ℚ) (min_blocks : ℕ) :
    List ℕ → List (ℕ × ℚ × ℝ)
  | [] => []
  | L :: Ls =>
    if series.length / L < min_blocks then []
    else blockingEntry series L :: blockingLoop series min_blocks Ls

/-- The successful branch of `blocking_variance`:
`max_power = int(np.log2(N // min_blocks))`,
`bin_sizes = 2 ** np.arange(max_power + 1)`, run the loop, and return
`bin_sizes[:len(var_mean)]` together with the collected `var_mean` and
`err_var` lists (projections of the processed entries). -/
noncomputable def blockingCurve (series : List ℚ) (min_blocks : ℕ) : BlockCurve :=
  let max_power := Nat.log2 (series.length / min_blocks)
  let bin_sizes := (List.range (max_power + 1)).map (2 ^ ·)
  let entries := blockingLoop series min_blocks bin_sizes
  ⟨entries.map (fun e => e.1), entries.map (fun e => e.2.1),
    entries.map (fun e => e.2.2)⟩

/-- `blocking_variance(series, min_blocks)` from the blocking notebook.
When `N // min_blocks = 0` the Python code raises
(`int(np.log2(0)) = int(-inf)` is an `OverflowError`; `min_blocks = 0`
raises `ZeroDivisionError`), modelled by `none`. -/
noncomputable def blocking_variance (series : List ℚ) (min_blocks : ℕ) :
    Option BlockCurve :=
  if series.length / min_blocks = 0 then none
  else some (blockingCurve series min_blocks)

/-- Candidate block lengths `bin_sizes = 2 ** np.arange(max_power + 1)`
with `max_power = int(np.log2(N // min_blocks))`. -/
def candidateBins (series : List ℚ) (min_blocks : ℕ) : List ℕ :=
  (List.range (Nat.log2 (series.length / min_blocks) + 1)).map (2 ^ ·)

theorem le_div_pow_iff (N m k : ℕ) (hm : 0 < m) :
    m ≤ N / 2 ^ k ↔ 2 ^ k ≤ N / m := by
  rw [Nat.le_div_iff_mul_le (Nat.two_pow_pos k), Nat.le_div_iff_mul_le hm,
    Nat.mul_comm]

theorem candidateBins_guard (series : List ℚ) (m : ℕ) (hm : 0 < m)
    (hNm : series.length / m ≠ 0) :
    ∀ L ∈ candidateBins series m, m ≤ series.length / L := by
  intro L hL
  rw [candidateBins, List.mem_map] at hL
  obtain ⟨k, hk, rfl⟩ := hL
  rw [List.mem_range, Nat.lt_succ_iff, Nat.log2_eq_log_two] at hk
  have h2 : 2 ^ k ≤ series.length / m :=
    (Nat.pow_le_iff_le_log one_lt_two hNm).mpr hk
  exact (le_div_pow_iff series.length m k hm).mpr h2

theorem blockingLoop_all_pass (series : List ℚ) (m : ℕ) :
    ∀ Ls : List ℕ, (∀ L ∈ Ls, m ≤ series.length / L) →
      blockingLoop series m Ls = Ls.map (blockingEntry series)
  | [], _ => rfl
  | L :: Ls, h => by
    rw [blockingLoop, if_neg (Nat.not_lt.mpr (h L (List.mem_cons_self L Ls))),
      blockingLoop_all_pass series m Ls
        (fun M hM => h M (List.mem_cons_of_mem L hM)),
      List.map_cons]

theorem blockingCurve_fields (series : List ℚ) (m : ℕ) (hm : 0 < m)
    (hNm : series.length / m ≠ 0) :
    (blockingCurve series m).bin_sizes = candidateBins series m ∧
    (blockingCurve series m).var_mean =
      (candidateBins series m).map (fun L => (blockingEntry series L).2.1) ∧
    (blockingCurve series m).err_var =
      (candidateBins series m).map (fun L => (blockingEntry series L).2.2) := by
  have hloop := blockingLoop_all_pass series m (candidateBins series m)
    (candidateBins_guard series m hm hNm)
  refine ⟨?_, ?_, ?_⟩
  · show (blockingLoop series m (candidateBins series m)).map (fun e => e.1) =
      candidateBins series m
    rw [hloop, List.map_map]
    have h1 : ((fun (e : ℕ × ℚ × ℝ) => e.1) ∘ blockingEntry series) =
        fun (L : ℕ) => L := rfl
    rw [h1]
    exact List.map_id' (candidateBins series m)
  · show (blockingLoop series m (candidateBins series m)).map (fun e => e.2.1) =
      (candidateBins series m).map (fun L => (blockingEntry series L).2.1)
    rw [hloop, List.map_map]
    rfl
  · show (blockingLoop series m (candidateBins series m)).map (fun e => e.2.2) =
      (candidateBins series m).map (fun L => (blockingEntry series L).2.2)
    rw [hloop, List.map_map]
    rfl

theorem blockingEntry_var (series : List ℚ) (L : ℕ) :
    (blockingEntry series L).2.1 = specVarOfMean series L := by
  show npVarDdof1 ((chunkList L (series.length / L) series).map npMean) /
      ((series.length / L : ℕ) : ℚ) = specVarOfMean series L
  rw [npVarDdof1_eq_specS2, chunk_means_eq_specBlockMeans]
  rfl

theorem blockingEntry_err (series : List ℚ) (L : ℕ) :
    (blockingEntry series L).2.2 =
      ((specVarOfMean series L : ℚ) : ℝ) *
        Real.sqrt (2 / (((series.length / L : ℕ) : ℝ) - 1)) := by
  show (((blockingEntry series L).2.1 : ℚ) : ℝ) *
      Real.sqrt (2 / (((series.length / L : ℕ) : ℝ) - 1)) = _
  rw [blockingEntry_var]

/-- C1: for a block length `L = 2^k` that yields at least `min_blocks`
blocks, `blocking_variance` succeeds and its variance-of-mean estimate at
position `k` (the position of `L` in the returned `bin_sizes`) is exactly
`s2 / n_blocks`, where `s2` is the unbiased (denominator `n_blocks - 1`)
sample variance of the means of the `n_blocks = N / L` contiguous length-`L`
blocks taken from the first `(N / L) * L` elements; the reported 1-sigma
uncertainty is that estimate times `sqrt (2 / (n_blocks - 1))`. -/
theorem blocking_variance_entry_at_power (series : List ℚ) (min_blocks k : ℕ)
    (hmb : 2 ≤ min_blocks) (hk : min_blocks ≤ series.length / 2 ^ k) :
    blocking_variance series min_blocks = some (blockingCurve series min_blocks) ∧
    (blockingCurve series min_blocks).var_mean.get? k =
      some (specVarOfMean series (2 ^ k)) ∧
    (blockingCurve series min_blocks).err_var.get? k =
      some (((specVarOfMean series (2 ^ k) : ℚ) : ℝ) *
        Real.sqrt (2 / (((series.length / 2 ^ k : ℕ) : ℝ) - 1))) := by
  have hm : 0 < min_blocks := Nat.lt_of_lt_of_le Nat.zero_lt_two hmb
  have hmN : min_blocks ≤ series.length := le_trans hk (Nat.div_le_self _ _)
  have hNm : series.length / min_blocks ≠ 0 := by
    have h1 := (Nat.one_le_div_iff hm).mpr hmN
    omega
  obtain ⟨hb, hv, he⟩ := blockingCurve_fields series min_blocks hm hNm
  have h2k : 2 ^ k ≤ series.length / min_blocks :=
    (le_div_pow_iff series.length min_blocks k hm).mp hk
  have hkK : k < Nat.log2 (series.length / min_blocks) + 1 := by
    rw [Nat.lt_succ_iff, Nat.log2_eq_log_two]
    exact (Nat.pow_le_iff_le_log one_lt_two hNm).mp h2k
  have hbins : (candidateBins series min_blocks).get? k = some (2 ^ k) := by
    rw [candidateBins, List.get?_map, List.get?_range hkK]
    rfl
  refine ⟨?_, ?_, ?_⟩
  · rw [blocking_variance, if_neg hNm]
  · rw [hv, List.get?_map, hbins]
    simp [blockingEntry_var]
  · rw [he, List.get?_map, hbins]
    simp [blockingEntry_err]

theorem blocking_variance_entry_at_power_witness :
    blocking_variance (List.replicate 8 (0 : ℚ)) 2 =
      some (blockingCurve (List.replicate 8 (0 : ℚ)) 2) ∧
    (blockingCurve (List.replicate 8 (0 : ℚ)) 2).var_mean.get? 1 =
      some (specVarOfMean (List.replicate 8 (0 : ℚ)) (2 ^ 1)) ∧
    (blockingCurve (List.replicate 8 (0 : ℚ)) 2).err_var.get? 1 =
      some (((specVarOfMean (List.replicate 8 (0 : ℚ)) (2 ^ 1) : ℚ) : ℝ) *
        Real.sqrt (2 / ((((List.replicate 8 (0 : ℚ)).length / 2 ^ 1 : ℕ) : ℝ) - 1))) :=
  blocking_variance_entry_at_power (List.replicate 8 (0 : ℚ)) 2 1 (by decide)
    (by decide)

/-- C2: on a series of length 3 with `min_blocks = 4` (so `N < min_blocks`),
`blocking_variance` does not return an empty curve: it fails, because
`int(np.log2(3 // 4)) = int(-inf)` raises `OverflowError` in the source.
The failure is modelled by `none`. -/
theorem blocking_variance_short_series_raises :
    blocking_variance [(1 : ℚ), 2, 3] 4 = none := rfl

/-- C4: whenever `blocking_variance` returns a curve, its three sequences
have equal length, the block lengths are the strictly increasing powers of
two `2^0, 2^1, ...`, every retained block length yields at least
`min_blocks` complete blocks, the next power of two would not (the curve is
truncated there, not padded), and for a series of length 16 with
`min_blocks = 4` the block lengths are exactly `[1, 2, 4]`. -/
theorem blocking_curve_invariants (series : List ℚ) (min_blocks : ℕ)
    (hNm : series.length / min_blocks ≠ 0) :
    blocking_variance series min_blocks = some (blockingCurve series min_blocks) ∧
    ((blockingCurve series min_blocks).bin_sizes.length =
        (blockingCurve series min_blocks).var_mean.length ∧
      (blockingCurve series min_blocks).bin_sizes.length =
        (blockingCurve series min_blocks).err_var.length) ∧
    (blockingCurve series min_blocks).bin_sizes =
      (List.range (blockingCurve series min_blocks).bin_sizes.length).map (2 ^ ·) ∧
    (blockingCurve series min_blocks).bin_sizes.Pairwise (· < ·) ∧
    (∀ L ∈ (blockingCurve series min_blocks).bin_sizes,
      min_blocks ≤ series.length / L) ∧
    series.length / 2 ^ (blockingCurve series min_blocks).bin_sizes.length <
      min_blocks ∧
    (series.length = 16 → min_blocks = 4 →
      (blockingCurve series min_blocks).bin_sizes = [1, 2, 4]) := by
  have hm : 0 < min_blocks := by
    rcases Nat.eq_zero_or_pos min_blocks with h | h
    · subst h
      simp at hNm
    · exact h
  obtain ⟨hb, hv, he⟩ := blockingCurve_fields series min_blocks hm hNm
  have hlen : (candidateBins series min_blocks).length =
      Nat.log2 (series.length / min_blocks) + 1 := by
    rw [candidateBins, List.length_map, List.length_range]
  refine ⟨?_, ⟨?_, ?_⟩, ?_, ?_, ?_, ?_, ?_⟩
  · rw [blocking_variance, if_neg hNm]
  · rw [hb, hv, List.length_map]
  · rw [hb, he, List.length_map]
  · rw [hb, hlen, candidateBins]
  · rw [hb, candidateBins, List.pairwise_map]
    exact List.Pairwise.imp (fun h => Nat.pow_lt_pow_right one_lt_two h)
      (List.pairwise_lt_range _)
  · rw [hb]
    exact candidateBins_guard series min_blocks hm hNm
  · rw [hb, hlen]
    have h1 : series.length / min_blocks <
        2 ^ (Nat.log2 (series.length / min_blocks) + 1) := by
      rw [Nat.log2_eq_log_two]
      exact Nat.lt_pow_succ_log_self one_lt_two _
    have h2 : series.length <
        2 ^ (Nat.log2 (series.length / min_blocks) + 1) * min_blocks :=
      (Nat.div_lt_iff_lt_mul hm).mp h1
    refine (Nat.div_lt_iff_lt_mul (Nat.two_pow_pos _)).mpr ?_
    rw [Nat.mul_comm]
    exact h2
  · intro h16 h4
    subst h4
    rw [hb, candidateBins, h16]
    have hlog : Nat.log2 (16 / 4) = 2 := by simp [Nat.log2]
    rw [hlog]
    decide

theorem blocking_curve_invariants_witness :
    blocking_variance (List.replicate 16 (0 : ℚ)) 4 =
      some (blockingCurve (List.replicate 16 (0 : ℚ)) 4) ∧
    (blockingCurve (List.replicate 16 (0 : ℚ)) 4).bin_sizes = [1, 2, 4] := by
  have h := blocking_curve_invariants (List.replicate 16 (0 : ℚ)) 4 (by decide)
  exact ⟨h.1, h.2.2.2.2.2.2 (by decide) rfl⟩

/-- Auxiliary for stride slicing: keep the current element when the
countdown is zero (and reset the countdown to `t - 1`), otherwise skip it
and decrement the countdown. -/
def strideAux {α : Type*} (t : ℕ) : ℕ → List α → List α
  | _, [] => []
  | 0, x :: xs => x :: strideAux t (t - 1) xs
  | k + 1, _ :: xs => strideAux t k xs

/-- Python stride slicing `xs[::t]` for `t ≥ 1`: keeps the elements at
indices `0, t, 2t, ...` of `xs`. -/
def strideSlice {α : Type*} (t : ℕ) (xs : List α) : List α :=
  strideAux t 0 xs

theorem strideAux_get? {α : Type*} (t : ℕ) (ht : 1 ≤ t) :
    ∀ (xs : List α) (k j : ℕ), (strideAux t k xs).get? j = xs.get? (k + j * t)
  | [], k, j => by simp [strideAux]
  | x :: xs, 0, 0 => by simp [strideAux]
  | x :: xs, 0, j + 1 => by
    have h1 : 0 + (j + 1) * t = (t - 1 + j * t) + 1 := by
      rw [Nat.succ_mul]
      omega
    rw [strideAux, List.get?_cons_succ, strideAux_get? t ht xs (t - 1) j, h1,
      List.get?_cons_succ]
  | x :: xs, k + 1, j => by
    have h1 : k + 1 + j * t = (k + j * t) + 1 := by omega
    rw [strideAux, strideAux_get? t ht xs k j, h1, List.get?_cons_succ]

theorem strideAux_length {α : Type*} (t : ℕ) (ht : 1 ≤ t) :
    ∀ (xs : List α) (k : ℕ),
      (strideAux t k xs).length = (xs.length - k + t - 1) / t
  | [], k => by
    simp only [strideAux, List.length, List.length_nil]
    rw [Nat.div_eq_of_lt (by omega : 0 - k + t - 1 < t)]
  | x :: xs, 0 => by
    simp only [strideAux, List.length_cons]
    rw [strideAux_length t ht xs (t - 1)]
    rcases le_or_lt (t - 1) xs.length with h | h
    · have h1 : xs.length - (t - 1) + t - 1 = xs.length := by omega
      have h2 : xs.length + 1 - 0 + t - 1 = xs.length + t := by omega
      rw [h1, h2, Nat.add_div_right _ (by omega : 0 < t)]
    · have h1 : xs.length - (t - 1) + t - 1 = t - 1 := by omega
      have h2 : xs.length + 1 - 0 + t - 1 = xs.length + t := by omega
      rw [h1, h2, Nat.add_div_right _ (by omega : 0 < t),
        Nat.div_eq_of_lt (by omega : t - 1 < t),
        Nat.div_eq_of_lt (by omega : xs.length < t)]
  | x :: xs, k + 1 => by
    simp only [strideAux, List.length_cons]
    rw [strideAux_length t ht xs k]
    congr 1
    omega

theorem strideSlice_get? {α : Type*} (t : ℕ) (ht : 1 ≤ t) (xs : List α)
    (j : ℕ) : (strideSlice t xs).get? j = xs.get? (j * t) := by
  have h := strideAux_get? t ht xs 0 j
  rw [strideSlice, h, Nat.zero_add]

theorem strideSlice_length {α : Type*} (t : ℕ) (ht : 1 ≤ t) (xs : List α) :
    (strideSlice t xs).length = (xs.length + t - 1) / t := by
  have h := strideAux_length t ht xs 0
  rw [strideSlice, h, Nat.sub_zero]

/-- Thinning as the specification words it: keep every `t`-th recorded
state, that is, the states whose (0-based) recording index is a multiple
of `t`. -/
def specThin {α : Type*} (t : ℕ) (xs : List α) : List α :=
  ((xs.enum.filter (fun p => p.1 % t = 0)).map Prod.snd)

theorem strideAux_eq_drop {α : Type*} (t : ℕ) :
    ∀ (xs : List α) (k : ℕ), strideAux t k xs = strideAux t 0 (xs.drop k)
  | [], k => by simp [strideAux]
  | x :: xs, 0 => rfl
  | x :: xs, k + 1 => by
    rw [strideAux, strideAux_eq_drop t xs k, List.drop_succ_cons]

theorem filter_enumFrom_nil {α : Type*} (t : ℕ) :
    ∀ (l : List α) (s : ℕ), (∀ m, s ≤ m → m < s + l.length → m % t ≠ 0) →
      (List.enumFrom s l).filter (fun p => p.1 % t = 0) = []
  | [], _, _ => rfl
  | x :: l, s, h => by
    rw [List.enumFrom_cons, List.filter_cons_of_neg
      (by simpa using h s le_rfl (by simp)),
      filter_enumFrom_nil t l (s + 1) (fun m h1 h2 => by
        refine h m (by omega) ?_
        simp only [List.length_cons]
        omega)]


theorem add_mod_ne_zero (t s r : ℕ) (hs : s % t = 0) (h1 : 1 ≤ r)
    (h2 : r < t) : (s + r) % t ≠ 0 := by
  obtain ⟨q, rfl⟩ := Nat.dvd_of_mod_eq_zero hs
  rw [Nat.mul_add_mod, Nat.mod_eq_of_lt h2]
  omega

theorem filter_enumFrom_stride {α : Type*} (t : ℕ) (ht : 1 ≤ t) :
    ∀ (n : ℕ) (xs : List α) (s : ℕ), xs.length ≤ n → s % t = 0 →
      ((List.enumFrom s xs).filter (fun p => p.1 % t = 0)).map Prod.snd =
        strideSlice t xs := by
  intro n
  induction n with
  | zero =>
    intro xs s hlen _
    rw [List.length_eq_zero.mp (Nat.le_zero.mp hlen)]
    rfl
  | succ n ih =>
    intro xs s hlen hs
    match xs with
    | [] => rfl
    | x :: l =>
      rw [List.enumFrom_cons, List.filter_cons_of_pos (by simpa using hs),
        List.map_cons]
      have hstep : strideSlice t (x :: l) =
          x :: strideSlice t (l.drop (t - 1)) := by
        rw [strideSlice, strideAux, strideAux_eq_drop t l (t - 1)]
        rfl
      rw [hstep]
      congr 1
      have hlen2 : l.length ≤ n := by
        simp only [List.length_cons] at hlen
        omega
      rcases le_or_lt (t - 1) l.length with hcase | hcase
      · have hnil : (List.enumFrom (s + 1) (l.take (t - 1))).filter
            (fun p => p.1 % t = 0) = [] := by
          refine filter_enumFrom_nil t (l.take (t - 1)) (s + 1) ?_
          intro m hm1 hm2
          rw [List.length_take] at hm2
          have hm : m = s + (m - s) := by omega
          rw [hm]
          exact add_mod_ne_zero t s (m - s) hs (by omega) (by omega)
        have harith : s + 1 + (l.take (t - 1)).length = s + t := by
          rw [List.length_take]
          omega
        have hmod : (s + t) % t = 0 := by
          rw [Nat.add_mod_right]
          exact hs
        conv_lhs => rw [← List.take_append_drop (t - 1) l]
        rw [List.enumFrom_append, List.filter_append, hnil, List.nil_append,
          harith]
        exact ih (l.drop (t - 1)) (s + t)
          (by rw [List.length_drop]; omega) hmod
      · have hdrop : l.drop (t - 1) = [] :=
          List.drop_eq_nil_of_le (by omega)
        have hnil : (List.enumFrom (s + 1) l).filter
            (fun p => p.1 % t = 0) = [] := by
          refine filter_enumFrom_nil t l (s + 1) ?_
          intro m hm1 hm2
          have hm : m = s + (m - s) := by omega
          rw [hm]
          exact add_mod_ne_zero t s (m - s) hs (by omega) (by omega)
        rw [hnil, hdrop]
        rfl

theorem specThin_eq_strideSlice {α : Type*} (t : ℕ) (ht : 1 ≤ t)
    (xs : List α) : specThin t xs = strideSlice t xs := by
  show ((xs.enum.filter (fun p => p.1 % t = 0)).map Prod.snd) =
    strideSlice t xs
  exact filter_enumFrom_stride t ht xs.length xs 0 le_rfl (Nat.zero_mod t)

/-- One sweep of `gibbs_accept_reject` over the coordinates `j = 0..d-1`
(inner `for j in range(d)` loop).  The random stream `rand` models the
global `rng`: at inner-step index `i*d + j` its first component is the
value returned by `rng.uniform(-step_size, step_size)` and its second
component the value returned by `rng.uniform()`.  Each step proposes
`x_prop = x.copy()` with `x_prop[j] = x[j] + draw`, computes
`acc_ratio = target_pdf(x_prop) / target_pdf(x)`, and commits
`x[j] = x_prop[j]` when `u < acc_ratio`. -/
def gibbsSweep (target_pdf : List ℚ → ℚ) (rand : ℕ → ℚ × ℚ) (d base : ℕ)
    (x : List ℚ) : List ℚ :=
  (List.range d).foldl (fun y j =>
    let draw := rand (base + j)
    let y_prop := y.set j (y.getD j 0 + draw.1)
    let acc_ratio := target_pdf y_prop / target_pdf y
    if draw.2 < acc_ratio then y.set j (y_prop.getD j 0) else y) x

/-- The recorded chain of `gibbs_accept_reject` before thinning/burn-in:
`N` sweeps, appending a copy of the current state after each full sweep
(`samples.append(x.copy())`).  `i` is the index of the next sweep. -/
def gibbsChainRaw (target_pdf : List ℚ → ℚ) (rand : ℕ → ℚ × ℚ) (d : ℕ) :
    ℕ → ℕ → List ℚ → List (List ℚ)
  | 0, _, _ => []
  | n + 1, i, x =>
    let y := gibbsSweep target_pdf rand d (i * d) x
    y :: gibbsChainRaw target_pdf rand d n (i + 1) y

/-- `gibbs_accept_reject(x0, thinning, burnin, N, step_size, target_pdf)`
from the Gibbs notebook: run `N` sweeps recording a state per sweep, then
`samples = samples[::thinning]` followed by `samples = samples[burnin:]`.
`step_size` only parameterizes the `rng.uniform(-step_size, step_size)`
draws, which the stream `rand` supplies directly.  Python raises
`ValueError` on `samples[::0]`, modelled by `none` when `thinning = 0`. -/
def gibbs_accept_reject (x0 : List ℚ) (thinning burnin N : ℕ)
    (step_size : ℚ) (target_pdf : List ℚ → ℚ) (rand : ℕ → ℚ × ℚ) :
    Option (List (List ℚ)) :=
  if thinning = 0 then none
  else some ((strideSlice thinning
    (gibbsChainRaw target_pdf rand x0.length N 0 x0)).drop burnin)

/-- A single coordinate update as the specification words it: propose the
current state with coordinate `j` perturbed by the drawn increment, accept
it entirely when `u < target_pdf x_prop / target_pdf x`, otherwise keep
the state unchanged. -/
def specUpdate (target_pdf : List ℚ → ℚ) (x : List ℚ) (j : ℕ)
    (delta u : ℚ) : List ℚ :=
  let x_prop := x.set j (x.getD j 0 + delta)
  if u < target_pdf x_prop / target_pdf x then x_prop else x

/-- A full sweep as the specification words it: apply `specUpdate` to each
coordinate index in the given list in order. -/
def specSweepList (target_pdf : List ℚ → ℚ) (rand : ℕ → ℚ × ℚ)
    (base : ℕ) : List ℕ → List ℚ → List ℚ
  | [], x => x
  | j :: js, x =>
    specSweepList target_pdf rand base js
      (specUpdate target_pdf x j (rand (base + j)).1 (rand (base + j)).2)

/-- The recorded chain as the specification words it: after each full
sweep over the coordinates `0..d-1` the current state is appended. -/
def specChain (target_pdf : List ℚ → ℚ) (rand : ℕ → ℚ × ℚ) (d : ℕ) :
    ℕ → ℕ → List ℚ → List (List ℚ)
  | 0, _, _ => []
  | n + 1, i, x =>
    let y := specSweepList target_pdf rand (i * d) (List.range d) x
    y :: specChain target_pdf rand d n (i + 1) y

theorem gibbs_step_eq_specUpdate (target_pdf : List ℚ → ℚ) (y : List ℚ)
    (j : ℕ) (delta u : ℚ) :
    (if u < target_pdf (y.set j (y.getD j 0 + delta)) / target_pdf y
      then y.set j ((y.set j (y.getD j 0 + delta)).getD j 0) else y) =
      specUpdate target_pdf y j delta u := by
  show _ = if u < target_pdf (y.set j (y.getD j 0 + delta)) / target_pdf y
    then y.set j (y.getD j 0 + delta) else y
  rcases Nat.lt_or_ge j y.length with hj | hj
  · have hset : (y.set j (y.getD j 0 + delta)).getD j 0 =
        y.getD j 0 + delta := by
      rw [List.getD_eq_getElem?_getD, List.getElem?_set_self (by omega)]
      rfl
    rw [hset]
  · have h1 : y.set j (y.getD j 0 + delta) = y := List.set_eq_of_length_le hj
    have h2 : y.set j (y.getD j 0) = y := List.set_eq_of_length_le hj
    rw [h1, h2]

theorem gibbs_fold_eq_specSweepList (target_pdf : List ℚ → ℚ)
    (rand : ℕ → ℚ × ℚ) (base : ℕ) :
    ∀ (js : List ℕ) (x : List ℚ),
      js.foldl (fun y j =>
        let draw := rand (base + j)
        let y_prop := y.set j (y.getD j 0 + draw.1)
        let acc_ratio := target_pdf y_prop / target_pdf y
        if draw.2 < acc_ratio then y.set j (y_prop.getD j 0) else y) x =
      specSweepList target_pdf rand base js x
  | [], _ => rfl
  | j :: js, x =>
    Eq.trans
      (gibbs_fold_eq_specSweepList target_pdf rand base js _)
      (congrArg (specSweepList target_pdf rand base js)
        (gibbs_step_eq_specUpdate target_pdf x j (rand (base + j)).1
          (rand (base + j)).2))

theorem gibbsSweep_eq_specSweep (target_pdf : List ℚ → ℚ)
    (rand : ℕ → ℚ × ℚ) (d base : ℕ) (x : List ℚ) :
    gibbsSweep target_pdf rand d base x =
      specSweepList target_pdf rand base (List.range d) x :=
  gibbs_fold_eq_specSweepList target_pdf rand base (List.range d) x

theorem gibbsChainRaw_eq_specChain (target_pdf : List ℚ → ℚ)
    (rand : ℕ → ℚ × ℚ) (d : ℕ) :
    ∀ (n i : ℕ) (x : List ℚ),
      gibbsChainRaw target_pdf rand d n i x =
        specChain target_pdf rand d n i x
  | 0, _, _ => rfl
  | n + 1, i, x => by
    simp only [gibbsChainRaw, specChain]
    rw [gibbsSweep_eq_specSweep target_pdf rand d (i * d) x,
      gibbsChainRaw_eq_specChain target_pdf rand d n (i + 1)]

theorem gibbsChainRaw_length (target_pdf : List ℚ → ℚ)
    (rand : ℕ → ℚ × ℚ) (d : ℕ) :
    ∀ (n i : ℕ) (x : List ℚ),
      (gibbsChainRaw target_pdf rand d n i x).length = n
  | 0, _, _ => rfl
  | n + 1, i, x => by
    simp only [gibbsChainRaw, List.length_cons,
      gibbsChainRaw_length target_pdf rand d n]

/-- C5: the recorded chain of `gibbs_accept_reject` equals the chain the
specification describes (sweep the coordinates `0..d-1` in fixed order;
in each inner step the proposal is the current state with only coordinate
`j` perturbed by the drawn increment; the acceptance ratio is
`target_pdf x_prop / target_pdf x`; the proposal is committed exactly when
the fresh uniform draw `u` satisfies `u < acc_ratio`, and otherwise the
state is unchanged; a copy of the state is appended after each full
sweep), and the pre-thinning chain has exactly `N` entries.  The last
three conjuncts spell out the accept/reject behaviour of a single
specification step. -/
theorem gibbs_sweep_step_spec (target_pdf : List ℚ → ℚ)
    (rand : ℕ → ℚ × ℚ) (d N i : ℕ) (x0 x : List ℚ) (j : ℕ) (delta u : ℚ) :
    gibbsChainRaw target_pdf rand d N i x0 =
      specChain target_pdf rand d N i x0 ∧
    (gibbsChainRaw target_pdf rand d N i x0).length = N ∧
    (u < target_pdf (x.set j (x.getD j 0 + delta)) / target_pdf x →
      specUpdate target_pdf x j delta u = x.set j (x.getD j 0 + delta)) ∧
    (¬ u < target_pdf (x.set j (x.getD j 0 + delta)) / target_pdf x →
      specUpdate target_pdf x j delta u = x) ∧
    (∀ k, k ≠ j → (specUpdate target_pdf x j delta u).get? k = x.get? k) := by
  refine ⟨gibbsChainRaw_eq_specChain target_pdf rand d N i x0,
    gibbsChainRaw_length target_pdf rand d N i x0, ?_, ?_, ?_⟩
  · intro h
    show (if u < target_pdf (x.set j (x.getD j 0 + delta)) / target_pdf x
      then x.set j (x.getD j 0 + delta) else x) = x.set j (x.getD j 0 + delta)
    rw [if_pos h]
  · intro h
    show (if u < target_pdf (x.set j (x.getD j 0 + delta)) / target_pdf x
      then x.set j (x.getD j 0 + delta) else x) = x
    rw [if_neg h]
  · intro k hk
    show (if u < target_pdf (x.set j (x.getD j 0 + delta)) / target_pdf x
      then x.set j (x.getD j 0 + delta) else x).get? k = x.get? k
    split
    · exact List.get?_set_ne _ _ (Ne.symm hk)
    · rfl

theorem gibbs_sweep_step_spec_witness :
    specUpdate (fun _ => (1 : ℚ)) [0] 0 1 0 =
      [(0 : ℚ)].set 0 ([(0 : ℚ)].getD 0 0 + 1) ∧
    (gibbsChainRaw (fun _ => (1 : ℚ)) (fun _ => (0, 0)) 1 2 0 [0]).length = 2 := by
  have h := gibbs_sweep_step_spec (fun _ => (1 : ℚ)) (fun _ => (0, 0)) 1 2 0
    [0] [0] 0 1 0
  exact ⟨h.2.2.1 (by simp), h.2.1⟩

/-- C3: the sampler post-processes the recorded per-sweep chain by first
keeping every `thinning`-th recorded state (fixed-stride slicing) and then
discarding the first `burnin` elements of the thinned sequence, so burn-in
counts post-thinning elements. -/
theorem gibbs_thinning_then_burnin (x0 : List ℚ) (thinning burnin N : ℕ)
    (step_size : ℚ) (target_pdf : List ℚ → ℚ) (rand : ℕ → ℚ × ℚ)
    (ht : 1 ≤ thinning) :
    gibbs_accept_reject x0 thinning burnin N step_size target_pdf rand =
      some ((specThin thinning
        (gibbsChainRaw target_pdf rand x0.length N 0 x0)).drop burnin) := by
  rw [gibbs_accept_reject, if_neg (by omega : ¬ thinning = 0),
    specThin_eq_strideSlice thinning ht]

theorem gibbs_thinning_then_burnin_witness :
    gibbs_accept_reject [(0 : ℚ)] 2 1 3 1 (fun _ => 1) (fun _ => (0, 0)) =
      some ((specThin 2
        (gibbsChainRaw (fun _ => (1 : ℚ)) (fun _ => (0, 0)) 1 3 0
          [0])).drop 1) :=
  gibbs_thinning_then_burnin [0] 2 1 3 1 (fun _ => 1) (fun _ => (0, 0))
    (by decide)

/-- C10: the thinning slice keeps the recorded states at sweep indices
`0, t, 2t, ...`, so the returned chain has length
`ceil(N / t) - burnin = (N + t - 1) / t - burnin` (truncated at zero), its
`i`-th element is recorded state `(burnin + i) * t`, and the chain is
empty as soon as `burnin ≥ ceil(N / t)`. -/
theorem gibbs_chain_length_spec (x0 : List ℚ) (thinning burnin N : ℕ)
    (step_size : ℚ) (target_pdf : List ℚ → ℚ) (rand : ℕ → ℚ × ℚ)
    (hN : 1 ≤ N) (ht : 1 ≤ thinning) (chain : List (List ℚ))
    (hchain : gibbs_accept_reject x0 thinning burnin N step_size target_pdf
      rand = some chain) :
    chain.length = (N + thinning - 1) / thinning - burnin ∧
    (∀ i, chain.get? i =
      (gibbsChainRaw target_pdf rand x0.length N 0 x0).get?
        ((burnin + i) * thinning)) ∧
    ((N + thinning - 1) / thinning ≤ burnin → chain = []) := by
  rw [gibbs_accept_reject, if_neg (by omega : ¬ thinning = 0),
    Option.some_inj] at hchain
  subst hchain
  refine ⟨?_, ?_, ?_⟩
  · rw [List.length_drop, strideSlice_length thinning ht,
      gibbsChainRaw_length]
  · intro i
    rw [List.get?_drop, strideSlice_get? thinning ht]
  · intro hb
    refine List.drop_eq_nil_of_le ?_
    rw [strideSlice_length thinning ht, gibbsChainRaw_length]
    exact hb

theorem gibbs_chain_length_spec_witness :
    ([[(0 : ℚ)]] : List (List ℚ)).length = (3 + 2 - 1) / 2 - 1 ∧
    (∀ i, ([[(0 : ℚ)]] : List (List ℚ)).get? i =
      (gibbsChainRaw (fun _ => (1 : ℚ)) (fun _ => (0, 0)) 1 3 0 [0]).get?
        ((1 + i) * 2)) ∧
    ((3 + 2 - 1) / 2 ≤ 1 → ([[(0 : ℚ)]] : List (List ℚ)) = []) :=
  gibbs_chain_length_spec [0] 2 1 3 1 (fun _ => 1) (fun _ => (0, 0))
    (by decide) (by decide) [[0]]
    (by simp [gibbs_accept_reject, gibbsChainRaw, gibbsSweep, strideSlice,
      strideAux, List.range_succ])

theorem foldl_id {α β : Type*} (f : α → β → α) (hf : ∀ y j, f y j = y) :
    ∀ (js : List β) (x : α), js.foldl f x = x
  | [], _ => rfl
  | j :: js, x => by rw [List.foldl_cons, hf, foldl_id f hf js]

theorem gibbsSweep_zero_target (rand : ℕ → ℚ × ℚ)
    (hrand : ∀ i, 0 ≤ (rand i).2) (d base : ℕ) (x : List ℚ) :
    gibbsSweep (fun _ => 0) rand d base x = x := by
  refine foldl_id _ ?_ (List.range d) x
  intro y j
  show (if (rand (base + j)).2 < (0 : ℚ) / (0 : ℚ)
      then y.set j ((y.set j (y.getD j 0 + (rand (base + j)).1)).getD j 0)
      else y) = y
  rw [zero_div, if_neg (not_lt.mpr (hrand (base + j)))]

theorem gibbsChainRaw_zero_target (rand : ℕ → ℚ × ℚ)
    (hrand : ∀ i, 0 ≤ (rand i).2) (d : ℕ) :
    ∀ (n i : ℕ) (x : List ℚ),
      gibbsChainRaw (fun _ => 0) rand d n i x = List.replicate n x
  | 0, _, _ => rfl
  | n + 1, i, x => by
    simp only [gibbsChainRaw]
    rw [gibbsSweep_zero_target rand hrand d (i * d) x,
      gibbsChainRaw_zero_target rand hrand d n (i + 1) x, List.replicate_succ]

/-- C6 (amended): no explicit numerical failure is signalled when the
target density is zero.  With an identically-zero target density every
acceptance ratio is `0 / 0` (numpy: NaN, emitted with only a runtime
warning) and the comparison `u < acc_ratio` is false for every uniform
draw `u ≥ 0`, so every proposal is silently rejected and the sampler
returns the thinned, burned chain of unchanged states normally. -/
theorem gibbs_zero_density_no_failure (x0 : List ℚ) (thinning burnin N : ℕ)
    (step_size : ℚ) (rand : ℕ → ℚ × ℚ) (ht : 1 ≤ thinning)
    (hrand : ∀ i, 0 ≤ (rand i).2) :
    gibbs_accept_reject x0 thinning burnin N step_size (fun _ => 0) rand =
      some ((strideSlice thinning (List.replicate N x0)).drop burnin) := by
  rw [gibbs_accept_reject, if_neg (by omega : ¬ thinning = 0),
    gibbsChainRaw_zero_target rand hrand x0.length N 0 x0]

theorem gibbs_zero_density_no_failure_witness :
    gibbs_accept_reject [(0 : ℚ)] 1 0 2 1 (fun _ => 0) (fun _ => (0, 0)) =
      some ((strideSlice 1 (List.replicate 2 [(0 : ℚ)])).drop 0) :=
  gibbs_zero_density_no_failure [0] 1 0 2 1 (fun _ => (0, 0)) (by decide)
    (fun _ => le_refl 0)

/-- C6 (counterexample): the sampler run on an identically-zero target
density returns an ordinary chain (`some`, never the error value `none`):
the division-by-zero acceptance ratio is not surfaced as a failure. -/
theorem gibbs_zero_density_counterexample :
    gibbs_accept_reject [(0 : ℚ)] 1 0 2 1 (fun _ => 0) (fun _ => (0, 0)) =
      some [[0], [0]] := by
  simp [gibbs_accept_reject, gibbsChainRaw, gibbsSweep, strideSlice,
    strideAux, List.range_succ]

/-- C7 (amended): when `burnin` is at least the post-thinning chain length
`ceil(N / thinning)`, the sampler silently returns an empty chain
(`some []`), not an explicit error outcome; callers must check for
emptiness themselves. -/
theorem gibbs_burnin_exceeds_chain (x0 : List ℚ) (thinning burnin N : ℕ)
    (step_size : ℚ) (target_pdf : List ℚ → ℚ) (rand : ℕ → ℚ × ℚ)
    (ht : 1 ≤ thinning) (hb : (N + thinning - 1) / thinning ≤ burnin) :
    gibbs_accept_reject x0 thinning burnin N step_size target_pdf rand =
      some [] := by
  rw [gibbs_accept_reject, if_neg (by omega : ¬ thinning = 0)]
  refine congrArg some (List.drop_eq_nil_of_le ?_)
  rw [strideSlice_length thinning ht, gibbsChainRaw_length]
  exact hb

theorem gibbs_burnin_exceeds_chain_witness :
    gibbs_accept_reject [(0 : ℚ)] 1 3 2 1 (fun _ => 1) (fun _ => (0, 0)) =
      some [] :=
  gibbs_burnin_exceeds_chain [0] 1 3 2 1 (fun _ => 1) (fun _ => (0, 0))
    (by decide) (by decide)

/-- C7 (counterexample): with `N = 2` sweeps, `thinning = 1` and
`burnin = 5` the sampler returns the ordinary value `some []` — an empty
array handed to consumers — rather than an error value (`none` models
raised errors in this embedding). -/
theorem gibbs_burnin_empty_counterexample :
    gibbs_accept_reject [(0 : ℚ)] 1 5 2 1 (fun _ => 1) (fun _ => (0, 0)) =
      some [] := by
  simp [gibbs_accept_reject, gibbsChainRaw, gibbsSweep, strideSlice,
    strideAux, List.range_succ]

/-- `importance_integration(f, target_pdf, m_chain)` from the Gibbs
notebook: elementwise weights `f(m_chain) / target_pdf(m_chain)` and their
`np.mean`. -/
def importance_integration (f target_pdf : List ℚ → ℚ)
    (m_chain : List (List ℚ)) : ℚ :=
  npMean (m_chain.map (fun x => f x / target_pdf x))

/-- C9: on a non-empty chain whose samples all have nonzero target
density, the importance estimator returns exactly the arithmetic mean of
the weights `f(chain[i]) / target_pdf(chain[i])`, computed elementwise
over the chain. -/
theorem importance_integration_mean (f target_pdf : List ℚ → ℚ)
    (m_chain : List (List ℚ)) (hne : m_chain ≠ [])
    (hnz : ∀ x ∈ m_chain, target_pdf x ≠ 0) :
    importance_integration f target_pdf m_chain =
      specMean (m_chain.map (fun x => f x / target_pdf x)) ∧
    ∀ i, i < m_chain.length →
      (m_chain.map (fun x => f x / target_pdf x)).get? i =
        some (f (m_chain.getD i []) / target_pdf (m_chain.getD i [])) := by
  constructor
  · rw [importance_integration, npMean_eq_specMean]
  · intro i hi
    have h1 : m_chain.get? i = some (m_chain.getD i []) := by
      rw [List.get?_eq_getElem?, List.getElem?_eq_getElem hi,
        List.getD_eq_getElem m_chain [] hi]
    rw [List.get?_map, h1]
    rfl

theorem importance_integration_mean_witness :
    importance_integration (fun _ => 2) (fun _ => 1) [[(1 : ℚ)]] =
      specMean (([[(1 : ℚ)]] : List (List ℚ)).map
        (fun x => (fun _ => (2 : ℚ)) x / (fun _ => (1 : ℚ)) x)) ∧
    ∀ i, i < ([[(1 : ℚ)]] : List (List ℚ)).length →
      (([[(1 : ℚ)]] : List (List ℚ)).map
        (fun x => (fun _ => (2 : ℚ)) x / (fun _ => (1 : ℚ)) x)).get? i =
        some ((fun _ => (2 : ℚ)) (([[(1 : ℚ)]] : List (List ℚ)).getD i []) /
          (fun _ => (1 : ℚ)) (([[(1 : ℚ)]] : List (List ℚ)).getD i [])) :=
  importance_integration_mean (fun _ => 2) (fun _ => 1) [[(1 : ℚ)]]
    (by decide) (by decide)

/-- Population (ddof = 0) standard deviation as numpy computes it:
`np.std(xs) = sqrt(np.mean((xs - xs.mean())**2))`. -/
noncomputable def npStd (xs : List ℝ) : ℝ :=
  Real.sqrt (npMean (xs.map (fun v => (v - npMean xs) ^ 2)))

/-- `monte_carlo_integral(integrand, bounds, N)` from the plain Monte
Carlo notebook.  The `N` points drawn by
`np.random.uniform(low, high, size=(N, d))` are supplied as the explicit
list `samples` (one point per row).  `vol = np.prod(high - low)`,
`values = integrand(samples)`, the estimate is `vol * np.mean(values)`
and the standard error `vol * np.std(values) / np.sqrt(N)`. -/
noncomputable def monte_carlo_integral (integrand : List ℝ → ℝ)
    (low high : List ℝ) (samples : List (List ℝ)) : ℝ × ℝ :=
  let vol := ((high.zip low).map (fun p => p.1 - p.2)).prod
  let values := samples.map integrand
  (vol * npMean values,
    vol * npStd values / Real.sqrt (samples.length : ℝ))

/-- Volume of the axis-aligned box with the given bound vectors, as the
specification words it: the product of the side lengths. -/
def specVolume : List ℝ → List ℝ → ℝ
  | l :: ls, h :: hs => (h - l) * specVolume ls hs
  | _, _ => 1

/-- Population standard deviation as the specification words it: the
square root of the mean squared deviation from the mean. -/
noncomputable def specPopStd (xs : List ℝ) : ℝ :=
  Real.sqrt ((xs.map (fun v => (v - specMean xs) ^ 2)).sum / (xs.length : ℝ))

theorem zip_prod_eq_specVolume :
    ∀ (low high : List ℝ), low.length = high.length →
      ((high.zip low).map (fun p => p.1 - p.2)).prod = specVolume low high
  | [], [], _ => rfl
  | l :: ls, h :: hs, hlen => by
    simp only [List.zip_cons_cons, List.map_cons, List.prod_cons, specVolume]
    rw [zip_prod_eq_specVolume ls hs (by simpa using hlen)]
  | [], _ :: _, hlen => by simp at hlen
  | _ :: _, [], hlen => by simp at hlen

theorem npStd_eq_specPopStd (xs : List ℝ) : npStd xs = specPopStd xs := by
  have hf : (fun v : ℝ => (v - npMean xs) ^ 2) =
      (fun v : ℝ => (v - specMean xs) ^ 2) := by
    funext v
    rw [npMean_eq_specMean]
  rw [npStd, specPopStd, hf, npMean, List.length_map]

/-- C8: for bounds with `low[i] < high[i]` and `N ≥ 1` samples, the plain
Monte Carlo integrator returns `volume * mean(values)` as the estimate and
`volume * std(values) / sqrt(N)` as the standard error, with `std` the
population standard deviation; with `N = 1` the standard error is exactly
zero. -/
theorem monte_carlo_integral_spec (integrand : List ℝ → ℝ)
    (low high : List ℝ) (samples : List (List ℝ)) (N : ℕ)
    (hbounds : List.Forall₂ (· < ·) low high) (hN : 1 ≤ N)
    (hlen : samples.length = N) :
    monte_carlo_integral integrand low high samples =
      (specVolume low high * specMean (samples.map integrand),
        specVolume low high * specPopStd (samples.map integrand) /
          Real.sqrt (N : ℝ)) ∧
    (N = 1 → (monte_carlo_integral integrand low high samples).2 = 0) := by
  have hlens : low.length = high.length := List.Forall₂.length_eq hbounds
  have hvol := zip_prod_eq_specVolume low high hlens
  constructor
  · show (((high.zip low).map (fun p => p.1 - p.2)).prod *
        npMean (samples.map integrand),
      ((high.zip low).map (fun p => p.1 - p.2)).prod *
        npStd (samples.map integrand) /
        Real.sqrt (samples.length : ℝ)) = _
    rw [hvol, npMean_eq_specMean, npStd_eq_specPopStd, hlen]
  · intro h1
    subst h1
    obtain ⟨s, rfl⟩ := List.length_eq_one.mp hlen
    show ((high.zip low).map (fun p => p.1 - p.2)).prod *
        npStd ([s].map integrand) /
        Real.sqrt ((([s] : List (List ℝ)).length : ℝ)) = 0
    have hstd : npStd ([s].map integrand) = 0 := by
      simp [npStd, npMean]
    rw [hstd, mul_zero, zero_div]

theorem monte_carlo_integral_spec_witness :
    monte_carlo_integral (fun _ => 0) [(0 : ℝ)] [(1 : ℝ)] [[(0 : ℝ)]] =
      (specVolume [(0 : ℝ)] [(1 : ℝ)] *
          specMean (([[(0 : ℝ)]] : List (List ℝ)).map (fun _ => (0 : ℝ))),
        specVolume [(0 : ℝ)] [(1 : ℝ)] *
          specPopStd (([[(0 : ℝ)]] : List (List ℝ)).map (fun _ => (0 : ℝ))) /
          Real.sqrt ((1 : ℕ) : ℝ)) ∧
    ((1 : ℕ) = 1 →
      (monte_carlo_integral (fun _ => 0) [(0 : ℝ)] [(1 : ℝ)] [[(0 : ℝ)]]).2 = 0) :=
  monte_carlo_integral_spec (fun _ => 0) [(0 : ℝ)] [(1 : ℝ)] [[(0 : ℝ)]] 1
    (by simp) (by decide) rfl
